import Mathlib

/-!
Verification development for the DouyinLiveRecorder web-supervisor repository.

The embedding covers:
* `clean_ansi_escape_sequences` (src/app.py) — the ANSI escape sanitizer,
  a faithful model of Python `re.sub` with the pattern: ESC followed by
  either a single byte in 0x40–0x5A or 0x5C–0x5F, or a CSI body written
  as an opening square bracket, then parameter bytes (0x30–0x3F) star,
  then intermediate bytes (0x20–0x2F) star, then a final byte (0x40–0x7E).
* `monitor_output` (src/app.py) — the output relay loop, modelled as a pure
  function from a trace of stream read results to the sequence of Socket.IO
  emissions plus a flag recording that the stdout handle was closed.
* `control_recorder` (src/app.py) — the start/stop control endpoint over the
  global supervisor state `(recorder_process, is_running)`.
* `get_ts_files` / `process_directory` (src/downloads/ts_monitor.py) — the
  ts-file housekeeping pass.
-/

set_option autoImplicit false

namespace DLR

/-- The ESC character (0x1B) that starts every ANSI escape sequence. -/
def escChar : Char := '\x1B'

/-- Membership in the regex class of single-character escape alternatives
(0x40–0x5A and 0x5C–0x5F). Note the square bracket 0x5B is excluded. -/
def isEscSingle (c : Char) : Bool :=
  (0x40 ≤ c.toNat && c.toNat ≤ 0x5A) || (0x5C ≤ c.toNat && c.toNat ≤ 0x5F)

/-- Membership in the CSI parameter-byte class (0x30–0x3F). -/
def isCsiParam (c : Char) : Bool := 0x30 ≤ c.toNat && c.toNat ≤ 0x3F

/-- Membership in the CSI intermediate-byte class (0x20–0x2F). -/
def isCsiInterm (c : Char) : Bool := 0x20 ≤ c.toNat && c.toNat ≤ 0x2F

/-- Membership in the CSI final-byte class (0x40–0x7E). -/
def isCsiFinal (c : Char) : Bool := 0x40 ≤ c.toNat && c.toNat ≤ 0x7E

/-- Attempt to match the part of the pattern after the initial ESC against a
character list.  Returns the remainder after the match, or `none`.
The CSI parameter, intermediate and final byte classes are pairwise
disjoint, so this greedy scan is exactly Python's backtracking semantics
for the CSI alternative of the pattern. -/
def csiFinish : List Char → Option (List Char)
  | f :: r3 => if isCsiFinal f then some r3 else none
  | [] => none

def matchAnsi : List Char → Option (List Char)
  | [] => none
  | c :: rest =>
    if c = '[' then csiFinish ((rest.dropWhile isCsiParam).dropWhile isCsiInterm)
    else if isEscSingle c then some rest
    else none

theorem dropWhile_length_le (p : Char → Bool) :
    ∀ l : List Char, (l.dropWhile p).length ≤ l.length := by
  intro l
  induction l with
  | nil => simp [List.dropWhile]
  | cons c rest ih =>
    by_cases h : p c
    · simp [List.dropWhile, h]
      omega
    · simp [List.dropWhile, h]

theorem matchAnsi_length {l r : List Char} (h : matchAnsi l = some r) :
    r.length ≤ l.length := by
  cases l with
  | nil => simp [matchAnsi] at h
  | cons c rest =>
    simp only [matchAnsi] at h
    by_cases hc : c = '['
    · rw [if_pos hc] at h
      cases hd : (rest.dropWhile isCsiParam).dropWhile isCsiInterm with
      | nil => rw [hd] at h; exact absurd h (by simp [csiFinish])
      | cons f r3 =>
        rw [hd] at h
        simp only [csiFinish] at h
        by_cases hf : isCsiFinal f = true
        · rw [if_pos hf] at h
          injection h with h2
          have h1 : (f :: r3).length ≤ rest.length := by
            rw [← hd]
            calc ((rest.dropWhile isCsiParam).dropWhile isCsiInterm).length
                ≤ (rest.dropWhile isCsiParam).length := dropWhile_length_le _ _
              _ ≤ rest.length := dropWhile_length_le _ _
          subst h2
          simp only [List.length_cons] at h1 ⊢
          omega
        · rw [if_neg hf] at h; exact absurd h (by simp)
    · rw [if_neg hc] at h
      by_cases hs : isEscSingle c = true
      · rw [if_pos hs] at h
        injection h with h2
        subst h2
        simp
      · rw [if_neg hs] at h; exact absurd h (by simp)

/-- Fuel-indexed scan for `re.sub(pattern, '', text)`: every character that is
not the start of a match is kept; at an ESC starting a match, the matched
portion is skipped.  The fuel argument only serves termination; it is
initialized to the length of the list, which every recursive call preserves
as an upper bound, so the `0, c :: rest` default branch is unreachable. -/
def cleanGo : Nat → List Char → List Char
  | _, [] => []
  | 0, c :: rest => c :: rest
  | fuel + 1, c :: rest =>
    if c = escChar then
      match matchAnsi rest with
      | some rest2 => cleanGo fuel rest2
      | none => c :: cleanGo fuel rest
    else c :: cleanGo fuel rest

/-- `clean_ansi_escape_sequences` from src/app.py:
`re.sub` of the ANSI pattern with the empty string. -/
def clean_ansi_escape_sequences (l : List Char) : List Char :=
  cleanGo l.length l

theorem cleanGo_nil (fuel : Nat) : cleanGo fuel [] = [] := by
  cases fuel <;> rfl

theorem cleanGo_fuel_eq :
    ∀ f1 : Nat, ∀ f2 : Nat, ∀ l : List Char,
      l.length ≤ f1 → l.length ≤ f2 → cleanGo f1 l = cleanGo f2 l := by
  intro f1
  induction f1 with
  | zero =>
    intro f2 l h1 _
    have : l = [] := List.eq_nil_of_length_eq_zero (Nat.le_zero.mp h1)
    subst this
    simp [cleanGo_nil]
  | succ f ih =>
    intro f2 l h1 h2
    cases l with
    | nil => simp [cleanGo_nil]
    | cons c rest =>
      cases f2 with
      | zero => simp at h2
      | succ g =>
        simp only [List.length_cons] at h1 h2
        simp only [cleanGo]
        by_cases hc : c = escChar
        · rw [if_pos hc, if_pos hc]
          cases hm : matchAnsi rest with
          | none => exact congrArg (c :: ·) (ih g rest (by omega) (by omega))
          | some r2 =>
            have hr2 := matchAnsi_length hm
            exact ih g r2 (by omega) (by omega)
        · rw [if_neg hc, if_neg hc]
          exact congrArg (c :: ·) (ih g rest (by omega) (by omega))

theorem clean_nil : clean_ansi_escape_sequences [] = [] := rfl

theorem clean_cons_not_esc {c : Char} (rest : List Char) (h : c ≠ escChar) :
    clean_ansi_escape_sequences (c :: rest) = c :: clean_ansi_escape_sequences rest := by
  show cleanGo (rest.length + 1) (c :: rest) = c :: cleanGo rest.length rest
  rw [cleanGo, if_neg h]

theorem clean_cons_esc_match {rest r2 : List Char} (h : matchAnsi rest = some r2) :
    clean_ansi_escape_sequences (escChar :: rest) = clean_ansi_escape_sequences r2 := by
  show cleanGo (rest.length + 1) (escChar :: rest) = cleanGo r2.length r2
  rw [cleanGo, if_pos rfl, h]
  exact cleanGo_fuel_eq _ _ _ (matchAnsi_length h) (Nat.le_refl _)

theorem clean_cons_esc_none {rest : List Char} (h : matchAnsi rest = none) :
    clean_ansi_escape_sequences (escChar :: rest) =
      escChar :: clean_ansi_escape_sequences rest := by
  show cleanGo (rest.length + 1) (escChar :: rest) = escChar :: cleanGo rest.length rest
  rw [cleanGo, if_pos rfl, h]

/-- An input with no ESC character is left unchanged by the sanitizer. -/
theorem clean_of_no_esc : ∀ l : List Char, escChar ∉ l →
    clean_ansi_escape_sequences l = l := by
  intro l
  induction l with
  | nil => intro _; rfl
  | cons c rest ih =>
    intro h
    have hc : c ≠ escChar := fun hh => h (hh ▸ List.mem_cons_self c rest)
    rw [clean_cons_not_esc rest hc, ih (fun hr => h (List.mem_cons_of_mem c hr))]

/-- A complete ANSI/VT escape sequence as matched by the pattern of
`clean_ansi_escape_sequences`: ESC plus a single final character, or
ESC plus a CSI body. -/
inductive EscSeq : List Char → Prop
  | single (c : Char) : isEscSingle c = true → EscSeq [escChar, c]
  | csi (ps ins : List Char) (f : Char) :
      (∀ c ∈ ps, isCsiParam c = true) → (∀ c ∈ ins, isCsiInterm c = true) →
      isCsiFinal f = true →
      EscSeq (escChar :: '[' :: (ps ++ ins ++ [f]))

/-- A string that is a concatenation of complete escape sequences
(in particular, one that sanitizes to the empty string). -/
inductive SanEmpty : List Char → Prop
  | nil : SanEmpty []
  | seq {e r : List Char} : EscSeq e → SanEmpty r → SanEmpty (e ++ r)

theorem dropWhile_append_all {p : Char → Bool} :
    ∀ xs ys : List Char, (∀ c ∈ xs, p c = true) →
      List.dropWhile p (xs ++ ys) = List.dropWhile p ys := by
  intro xs ys h
  induction xs with
  | nil => simp
  | cons c rest ih =>
    have hc : p c = true := h c (List.mem_cons_self c rest)
    simp only [List.cons_append, List.dropWhile_cons, hc, if_pos]
    exact ih (fun d hd => h d (List.mem_cons_of_mem c hd))

theorem dropWhile_cons_false {p : Char → Bool} {c : Char} (l : List Char)
    (h : p c = false) : List.dropWhile p (c :: l) = c :: l := by
  simp [List.dropWhile_cons, h]

theorem csiInterm_not_param {c : Char} (h : isCsiInterm c = true) :
    isCsiParam c = false := by
  simp only [isCsiInterm, Bool.and_eq_true, decide_eq_true_eq] at h
  rw [Bool.eq_false_iff]
  intro h2
  simp only [isCsiParam, Bool.and_eq_true, decide_eq_true_eq] at h2
  omega

theorem csiFinal_not_param {c : Char} (h : isCsiFinal c = true) :
    isCsiParam c = false := by
  simp only [isCsiFinal, Bool.and_eq_true, decide_eq_true_eq] at h
  rw [Bool.eq_false_iff]
  intro h2
  simp only [isCsiParam, Bool.and_eq_true, decide_eq_true_eq] at h2
  omega

theorem csiFinal_not_interm {c : Char} (h : isCsiFinal c = true) :
    isCsiInterm c = false := by
  simp only [isCsiFinal, Bool.and_eq_true, decide_eq_true_eq] at h
  rw [Bool.eq_false_iff]
  intro h2
  simp only [isCsiInterm, Bool.and_eq_true, decide_eq_true_eq] at h2
  omega

theorem escSingle_ne_bracket {c : Char} (h : isEscSingle c = true) : c ≠ '[' := by
  intro hc
  subst hc
  simp [isEscSingle] at h

/-- A complete escape sequence matches, leaving exactly the appended rest. -/
theorem escSeq_match {e : List Char} (he : EscSeq e) (r : List Char) :
    ∃ t, e = escChar :: t ∧ matchAnsi (t ++ r) = some r := by
  cases he with
  | single c hc =>
    refine ⟨[c], rfl, ?_⟩
    simp only [List.cons_append, List.nil_append, matchAnsi,
      if_neg (escSingle_ne_bracket hc), hc, if_pos]
  | csi ps ins f hps hins hf =>
    refine ⟨'[' :: (ps ++ ins ++ [f]), rfl, ?_⟩
    simp only [List.cons_append, matchAnsi, if_pos rfl]
    have hassoc : (ps ++ ins ++ [f]) ++ r = ps ++ (ins ++ (f :: r)) := by
      simp [List.append_assoc]
    rw [hassoc, dropWhile_append_all ps _ hps]
    have h2 : List.dropWhile isCsiParam (ins ++ f :: r) = ins ++ f :: r := by
      cases ins with
      | nil =>
        simp only [List.nil_append]
        exact dropWhile_cons_false _ (csiFinal_not_param hf)
      | cons i itl =>
        simp only [List.cons_append]
        exact dropWhile_cons_false _
          (csiInterm_not_param (hins i (List.mem_cons_self i itl)))
    rw [h2, dropWhile_append_all ins _ hins,
      dropWhile_cons_false _ (csiFinal_not_interm hf)]
    simp [csiFinish, hf]

/-- Sanitizing removes a leading complete escape sequence. -/
theorem clean_escSeq_append {e : List Char} (he : EscSeq e) (r : List Char) :
    clean_ansi_escape_sequences (e ++ r) = clean_ansi_escape_sequences r := by
  obtain ⟨t, hte, hm⟩ := escSeq_match he r
  subst hte
  simp only [List.cons_append]
  exact clean_cons_esc_match hm

/-- A concatenation of complete escape sequences sanitizes to the empty string. -/
theorem clean_sanEmpty {m : List Char} (hm : SanEmpty m) :
    clean_ansi_escape_sequences m = [] := by
  induction hm with
  | nil => rfl
  | seq he _ ih => rw [clean_escSeq_append he, ih]

/-- ASCII whitespace stripped by Python `str.strip()` (the relay applies
`line.strip()` before sanitizing).  Python also strips some rarer Unicode
whitespace; all whitespace appearing in this development is ASCII. -/
def isPySpace (c : Char) : Bool :=
  c = ' ' || c = '\t' || c = '\n' || c = '\r' || c = '\x0B' || c = '\x0C'

/-- Python `str.strip()`: drop leading and trailing whitespace. -/
def pyStrip (l : List Char) : List Char :=
  ((l.dropWhile isPySpace).reverse.dropWhile isPySpace).reverse

theorem dropWhile_eq_nil_of_all {p : Char → Bool} {l : List Char}
    (h : ∀ c ∈ l, p c = true) : l.dropWhile p = [] := by
  have := dropWhile_append_all l [] h
  simpa using this

theorem pySpace_toNat_le {c : Char} (h : isPySpace c = true) : c.toNat ≤ 32 := by
  simp only [isPySpace, Bool.or_eq_true, decide_eq_true_eq] at h
  rcases h with ((((h | h) | h) | h) | h) | h <;> subst h <;> decide

theorem escSingle_not_space {c : Char} (h : isEscSingle c = true) :
    isPySpace c = false := by
  rw [Bool.eq_false_iff]
  intro h2
  have := pySpace_toNat_le h2
  simp only [isEscSingle, Bool.or_eq_true, Bool.and_eq_true, decide_eq_true_eq] at h
  omega

theorem csiFinal_not_space {c : Char} (h : isCsiFinal c = true) :
    isPySpace c = false := by
  rw [Bool.eq_false_iff]
  intro h2
  have := pySpace_toNat_le h2
  simp only [isCsiFinal, Bool.and_eq_true, decide_eq_true_eq] at h
  omega

theorem escChar_not_space : isPySpace escChar = false := by decide

/-- A nonempty concatenation of escape sequences starts with ESC. -/
theorem sanEmpty_head {m : List Char} (hm : SanEmpty m) (hne : m ≠ []) :
    ∃ t, m = escChar :: t := by
  cases hm with
  | nil => exact absurd rfl hne
  | @seq e r he hr =>
    obtain ⟨t, hte, _⟩ := escSeq_match he []
    exact ⟨t ++ r, by rw [hte, List.cons_append]⟩

/-- The reversal of a complete escape sequence starts with a non-whitespace
character (the final byte of the sequence). -/
theorem escSeq_rev {e : List Char} (he : EscSeq e) :
    ∃ d t, e.reverse = d :: t ∧ isPySpace d = false := by
  cases he with
  | single c hc =>
    exact ⟨c, [escChar], by simp, escSingle_not_space hc⟩
  | csi ps ins f hps hins hf =>
    refine ⟨f, ins.reverse ++ (ps.reverse ++ ['[', escChar]), ?_, csiFinal_not_space hf⟩
    simp

/-- A nonempty concatenation of escape sequences ends with a non-whitespace
character. -/
theorem sanEmpty_rev {m : List Char} (hm : SanEmpty m) :
    m = [] ∨ ∃ d t, m.reverse = d :: t ∧ isPySpace d = false := by
  induction hm with
  | nil => exact Or.inl rfl
  | @seq e r he _ ih =>
    right
    rcases ih with hr0 | ⟨d, t, hrt, hd⟩
    · subst hr0
      obtain ⟨d, t, het, hd⟩ := escSeq_rev he
      exact ⟨d, t, by simpa using het, hd⟩
    · refine ⟨d, t ++ e.reverse, ?_, hd⟩
      rw [List.reverse_append, hrt, List.cons_append]

/-- `str.strip()` of whitespace, then a block starting and ending in
non-whitespace, then whitespace, returns exactly the middle block. -/
theorem pyStrip_sandwich {pre m post : List Char}
    (hpre : ∀ c ∈ pre, isPySpace c = true) (hpost : ∀ c ∈ post, isPySpace c = true)
    (hhd : ∃ c t, m = c :: t ∧ isPySpace c = false)
    (hlast : ∃ d t, m.reverse = d :: t ∧ isPySpace d = false) :
    pyStrip (pre ++ m ++ post) = m := by
  obtain ⟨c, t, hmc, hc⟩ := hhd
  obtain ⟨d, s, hmr, hd⟩ := hlast
  unfold pyStrip
  rw [List.append_assoc, dropWhile_append_all pre _ hpre]
  have h1 : List.dropWhile isPySpace (m ++ post) = m ++ post := by
    rw [hmc, List.cons_append]
    exact dropWhile_cons_false _ hc
  rw [h1, List.reverse_append]
  have h2 : List.dropWhile isPySpace (post.reverse ++ m.reverse) =
      List.dropWhile isPySpace m.reverse := by
    exact dropWhile_append_all _ _ (fun x hx => hpost x (List.mem_reverse.mp hx))
  rw [h2, hmr, dropWhile_cons_false _ hd, ← hmr, List.reverse_reverse]

/-- `str.strip()` of a pure-whitespace string is empty. -/
theorem pyStrip_all_space {l : List Char} (h : ∀ c ∈ l, isPySpace c = true) :
    pyStrip l = [] := by
  unfold pyStrip
  rw [dropWhile_eq_nil_of_all h]
  rfl

/-- A value in a Socket.IO payload dictionary. -/
inductive Value
  | str (s : List Char)
  | bool (b : Bool)
deriving DecidableEq

/-- One `socketio.emit(event, payload)` call: the event name and the
payload dictionary, as key/value pairs in literal order. -/
structure Emit where
  event : String
  payload : List (String × Value)
deriving DecidableEq

/-- The relay's log emission: `socketio.emit('log', ...)` with a
single-key payload dictionary holding the text under `data`. -/
def logEmit (s : List Char) : Emit :=
  ⟨"log", [("data", Value.str s)]⟩

/-- A status emission: `socketio.emit('status', ...)` with the
`is_running` flag. -/
def statusEmit (b : Bool) : Emit :=
  ⟨"status", [("is_running", Value.bool b)]⟩

/-- One observation of the worker's stdout inside the relay's read loop:
either `readline` returned a line `s` and the subsequent `poll()` reported
exit ⟺ `exited`, or `readline` raised an exception with message `msg`.
End of stream (readline returning the empty sentinel) is the end of the
trace list. -/
inductive StreamItem
  | line (s : List Char) (exited : Bool)
  | readError (msg : List Char)
deriving DecidableEq

/-- The fixed startup log line emitted when the relay begins. -/
def startMsg : List Char := "程序启动中...".data

/-- The fixed shutdown log line emitted in the `finally` block. -/
def stopMsg : List Char := "程序已停止".data

/-- The log line emitted from the `except` clause on a read error. -/
def errLogMsg (m : List Char) : List Char :=
  "错误: Error monitoring output: ".data ++ m

/-- The emissions of the `finally` block, in order: the terminal status,
then the fixed shutdown log line. -/
def finallyEmits : List Emit := [statusEmit false, logEmit stopMsg]

/-- Per-line processing of the relay:
`cleaned_line = clean_ansi_escape_sequences(line.strip())`, emitted as a
log event only when non-empty. -/
def lineOut (s : List Char) : Option Emit :=
  if clean_ansi_escape_sequences (pyStrip s) = [] then none
  else some (logEmit (clean_ansi_escape_sequences (pyStrip s)))

/-- The read loop of `monitor_output` plus its `except`/`finally` clauses:
returns the emissions it performs (excluding the two initial ones) and
whether `process.stdout.close()` was executed before returning. -/
def monitorLoop : List StreamItem → List Emit × Bool
  | [] => (finallyEmits, true)
  | StreamItem.line s exited :: rest =>
    let evs := if s = [] then [] else (lineOut s).toList
    if exited then (evs ++ finallyEmits, true)
    else (evs ++ (monitorLoop rest).1, (monitorLoop rest).2)
  | StreamItem.readError m :: _ => (logEmit (errLogMsg m) :: finallyEmits, true)

/-- `monitor_output` from src/app.py: the initial status and startup log,
then the read loop. -/
def monitor_output (tr : List StreamItem) : List Emit × Bool :=
  (statusEmit true :: logEmit startMsg :: (monitorLoop tr).1, (monitorLoop tr).2)

/-- The lines the loop actually reads from the trace (it stops after a line
whose poll reports exit, and at a read error). -/
def consumedLines : List StreamItem → List (List Char)
  | [] => []
  | StreamItem.line s exited :: rest =>
    s :: (if exited then [] else consumedLines rest)
  | StreamItem.readError _ :: _ => []

/-- The error-log emission of the `except` clause when the loop ends on a
read error, and nothing otherwise. -/
def errTail : List StreamItem → List Emit
  | [] => []
  | StreamItem.line _ exited :: rest => if exited then [] else errTail rest
  | StreamItem.readError m :: _ => [logEmit (errLogMsg m)]

theorem lineOut_nil : lineOut [] = none := rfl

theorem lineOut_some {s : List Char} {e : Emit} (h : lineOut s = some e) :
    ∃ d, e = logEmit d := by
  unfold lineOut at h
  by_cases hc : clean_ansi_escape_sequences (pyStrip s) = []
  · rw [if_pos hc] at h
    exact absurd h (by simp)
  · rw [if_neg hc] at h
    injection h with h2
    exact ⟨_, h2.symm⟩

theorem filterMap_cons_toList (s : List Char) (L : List (List Char)) :
    List.filterMap lineOut (s :: L) = (lineOut s).toList ++ List.filterMap lineOut L := by
  cases hm : lineOut s <;> simp [List.filterMap_cons, hm]

theorem line_evs_eq (s : List Char) :
    (if s = [] then [] else (lineOut s).toList) = (lineOut s).toList := by
  by_cases h : s = []
  · subst h; simp [lineOut_nil]
  · rw [if_neg h]

/-- Characterization of the loop's emissions: the per-line log events of
the consumed lines, in order, then the error log (if the loop ended in a
read error), then the `finally` emissions. -/
theorem monitorLoop_eq : ∀ tr : List StreamItem,
    (monitorLoop tr).1 =
      (consumedLines tr).filterMap lineOut ++ errTail tr ++ finallyEmits := by
  intro tr
  induction tr with
  | nil => simp [monitorLoop, consumedLines, errTail]
  | cons item rest ih =>
    cases item with
    | line s exited =>
      cases exited with
      | true =>
        simp [monitorLoop, consumedLines, errTail, line_evs_eq, filterMap_cons_toList]
      | false =>
        simp [monitorLoop, consumedLines, errTail, line_evs_eq, filterMap_cons_toList,
          ih, List.append_assoc]
    | readError m =>
      simp [monitorLoop, consumedLines, errTail]

theorem errTail_shape : ∀ tr : List StreamItem, ∀ e ∈ errTail tr,
    ∃ d, e = logEmit d := by
  intro tr
  induction tr with
  | nil => intro e he; simp [errTail] at he
  | cons item rest ih =>
    intro e he
    cases item with
    | line s exited =>
      cases exited with
      | true => simp [errTail] at he
      | false => exact ih e (by simpa [errTail] using he)
    | readError m =>
      simp [errTail] at he
      exact ⟨_, he⟩

theorem filterMap_lineOut_shape : ∀ L : List (List Char), ∀ e ∈ L.filterMap lineOut,
    ∃ d, e = logEmit d := by
  intro L
  induction L with
  | nil => intro e he; simp at he
  | cons s rest ih =>
    intro e he
    rw [List.filterMap_cons] at he
    cases hm : lineOut s with
    | none => rw [hm] at he; exact ih e he
    | some e2 =>
      rw [hm] at he
      rcases List.mem_cons.mp he with h1 | h2
      · subst h1; exact lineOut_some hm
      · exact ih e h2

/-- Every emission of a relay run is either a status event or a log event. -/
theorem monitor_emit_shape (tr : List StreamItem) (e : Emit)
    (he : e ∈ (monitor_output tr).1) :
    (∃ b, e = statusEmit b) ∨ (∃ d, e = logEmit d) := by
  unfold monitor_output at he
  rcases List.mem_cons.mp he with h1 | he
  · exact Or.inl ⟨true, h1⟩
  rcases List.mem_cons.mp he with h1 | he
  · exact Or.inr ⟨startMsg, h1⟩
  rw [monitorLoop_eq] at he
  rcases List.mem_append.mp he with he | hfin
  · rcases List.mem_append.mp he with hl | herr
    · exact Or.inr (filterMap_lineOut_shape _ e hl)
    · exact Or.inr (errTail_shape _ e herr)
  · rcases List.mem_cons.mp hfin with h1 | hfin
    · exact Or.inl ⟨false, h1⟩
    · rcases List.mem_cons.mp hfin with h1 | hfin
      · exact Or.inr ⟨stopMsg, h1⟩
      · simp at hfin

/-- The supervisor's global mutable state in src/app.py:
`recorder_process` (the Popen handle, modelled by its pid) and `is_running`. -/
structure AppState where
  recorder_process : Option Nat
  is_running : Bool
deriving DecidableEq

/-- What one `control_recorder` call observes of the outside world: whether
`main.py` and the virtual-environment Python interpreter exist, whether
`subprocess.Popen` succeeds and which pid it produces, and whether the
worker exits within the 5-second `wait` timeout after `terminate()`. -/
structure ControlEnv where
  main_py_exists : Bool
  venv_python_exists : Bool
  spawn_ok : Bool
  spawn_pid : Nat
  stop_wait_completes : Bool
deriving DecidableEq

/-- The endpoint's JSON response: success message, or error message with
HTTP status code. -/
inductive ControlResult
  | ok (message : String)
  | err (message : String) (httpStatus : Nat)
deriving DecidableEq

/-- Everything one `control_recorder` call does: its response, the global
state it leaves behind, the pid of a worker it spawned (if any), and the
Socket.IO events it emits. -/
structure ControlOutcome where
  response : ControlResult
  state : AppState
  spawned : Option Nat
  emits : List Emit
deriving DecidableEq

/-- The start-success log line (the Python f-string interpolating the pid). -/
def startedLog (pid : Nat) : List Char :=
  "程序已启动 (PID: ".data ++ (toString pid).data ++ ")".data

/-- The log line emitted when starting fails with the given exception text. -/
def errStartLog (reason : String) : List Char :=
  "错误: Error starting process: ".data ++ reason.data

/-- `control_recorder` from src/app.py.  The `start` branch runs only when
`action == 'start' and not is_running`; the `stop` branch only when
`action == 'stop' and is_running`; everything else falls through to the
400 invalid-operation response.  Exception texts that Python builds from
exception objects are abbreviated to fixed strings. -/
def control_recorder (env : ControlEnv) (action : String) (st : AppState) :
    ControlOutcome :=
  if action = "start" ∧ st.is_running = false then
    if env.main_py_exists = false then
      ⟨ControlResult.err "启动失败: main.py not found" 500, st, none,
        [logEmit (errStartLog "main.py not found")]⟩
    else if env.venv_python_exists = false then
      ⟨ControlResult.err "启动失败: Virtual environment Python interpreter not found" 500,
        st, none,
        [logEmit (errStartLog "Virtual environment Python interpreter not found")]⟩
    else if env.spawn_ok = false then
      ⟨ControlResult.err "启动失败: spawn error" 500, st, none,
        [logEmit (errStartLog "spawn error")]⟩
    else
      ⟨ControlResult.ok "程序已启动", ⟨some env.spawn_pid, true⟩, some env.spawn_pid,
        [statusEmit true, logEmit (startedLog env.spawn_pid)]⟩
  else if action = "stop" ∧ st.is_running = true then
    match st.recorder_process with
    | none =>
      ⟨ControlResult.err "停止失败: no process handle" 500, st, none, []⟩
    | some _ =>
      if env.stop_wait_completes then
        ⟨ControlResult.ok "录制程序已停止", ⟨st.recorder_process, false⟩, none, []⟩
      else
        ⟨ControlResult.err "停止失败: wait timeout" 500, st, none, []⟩
  else
    ⟨ControlResult.err "无效的操作" 400, st, none, []⟩

theorem control_recorder_not_start_not_stop (env : ControlEnv) (st : AppState)
    {action : String} (h1 : ¬(action = "start" ∧ st.is_running = false))
    (h2 : ¬(action = "stop" ∧ st.is_running = true)) :
    control_recorder env action st =
      ⟨ControlResult.err "无效的操作" 400, st, none, []⟩ := by
  unfold control_recorder
  rw [if_neg h1, if_neg h2]

/-- A .ts file as seen by the housekeeping pass: its path, its modification
time (`st_mtime`) and its size (`st_size`). -/
structure TsFile where
  path : String
  mtime : Nat
  size : Nat
deriving DecidableEq

/-- The size cache (the `ts_monitor_cache.json` dictionary): a path-keyed
association list with distinct keys, in insertion order. -/
abbrev Cache := List (String × Nat)

/-- Whether `rclone move` (`move_file_to_cloud`) succeeds for a file. -/
structure MoveEnv where
  moveOk : TsFile → Bool

/-- Stable insertion into a list sorted by decreasing modification time. -/
def insertByMtime (f : TsFile) : List TsFile → List TsFile
  | [] => [f]
  | g :: gs => if f.mtime < g.mtime then g :: insertByMtime f gs else f :: g :: gs

/-- `get_ts_files` from src/downloads/ts_monitor.py: the directory's .ts
files sorted by modification time, newest first.  Python's `list.sort`
with `reverse=True` is a stable descending sort, which this insertion
sort reproduces. -/
def get_ts_files (files : List TsFile) : List TsFile :=
  files.foldr insertByMtime []

/-- `file_cache.pop(str(file), None)`: remove the entry with this path. -/
def cachePop (k : String) : Cache → Cache
  | [] => []
  | (k2, v) :: rest => if k2 = k then cachePop k rest else (k2, v) :: cachePop k rest

/-- Dictionary lookup: `key in dict` and `dict[key]` combined. -/
def cacheLookup (k : String) : Cache → Option Nat
  | [] => none
  | (k2, v) :: rest => if k2 = k then some v else cacheLookup k rest

/-- Dictionary assignment `dict[key] = value` (updates in place, appends
a new key at the end). -/
def cacheSet (k : String) (v : Nat) : Cache → Cache
  | [] => [(k, v)]
  | (k2, v2) :: rest => if k2 = k then (k, v) :: rest else (k2, v2) :: cacheSet k v rest

/-- The loop over `ts_files[1:]`: `move_file_to_cloud` each file and, on
success, pop its entry from the cache. -/
def moveBatch (env : MoveEnv) (l : List TsFile) (cache : Cache) : Cache :=
  l.foldl (fun c f => if env.moveOk f then cachePop f.path c else c) cache

/-- The single-file branch of `process_directory` (file count = 1). -/
def processSingle (env : MoveEnv) (f : TsFile) (cache : Cache) :
    List TsFile × Cache :=
  match cacheLookup f.path cache with
  | some sz =>
    if f.size = sz then
      if env.moveOk f then ([f], cachePop f.path cache) else ([f], cache)
    else ([], cacheSet f.path f.size cache)
  | none => ([], cacheSet f.path f.size cache)

/-- `process_directory` from src/downloads/ts_monitor.py.  Returns the
list of files passed to `move_file_to_cloud`, in call order, and the
updated cache. -/
def process_directory (env : MoveEnv) (files : List TsFile) (cache : Cache) :
    List TsFile × Cache :=
  match get_ts_files files with
  | [] => ([], cache)
  | newest :: others =>
    if others = [] then processSingle env newest cache
    else (others, moveBatch env others cache)

theorem insertByMtime_perm (f : TsFile) :
    ∀ l : List TsFile, List.Perm (insertByMtime f l) (f :: l) := by
  intro l
  induction l with
  | nil => rfl
  | cons g gs ih =>
    by_cases h : f.mtime < g.mtime
    · rw [insertByMtime, if_pos h]
      exact List.Perm.trans (List.Perm.cons g ih) (List.Perm.swap f g gs)
    · rw [insertByMtime, if_neg h]

theorem get_ts_files_perm :
    ∀ files : List TsFile, List.Perm (get_ts_files files) files := by
  intro files
  induction files with
  | nil => rfl
  | cons x xs ih =>
    exact List.Perm.trans (insertByMtime_perm x (get_ts_files xs)) (List.Perm.cons x ih)

theorem pairwise_insertByMtime (f : TsFile) :
    ∀ l : List TsFile, l.Pairwise (fun a b => b.mtime ≤ a.mtime) →
      (insertByMtime f l).Pairwise (fun a b => b.mtime ≤ a.mtime) := by
  intro l
  induction l with
  | nil => intro _; simp [insertByMtime]
  | cons g gs ih =>
    intro h
    rw [List.pairwise_cons] at h
    obtain ⟨hg, hgs⟩ := h
    by_cases hf : f.mtime < g.mtime
    · rw [insertByMtime, if_pos hf, List.pairwise_cons]
      constructor
      · intro b hb
        rcases List.mem_cons.mp ((insertByMtime_perm f gs).mem_iff.mp hb) with hb | hb
        · subst hb; omega
        · exact hg b hb
      · exact ih hgs
    · rw [insertByMtime, if_neg hf, List.pairwise_cons]
      constructor
      · intro b hb
        rcases List.mem_cons.mp hb with hb | hb
        · subst hb; omega
        · have := hg b hb; omega
      · rw [List.pairwise_cons]; exact ⟨hg, hgs⟩

theorem get_ts_files_sorted :
    ∀ files : List TsFile,
      (get_ts_files files).Pairwise (fun a b => b.mtime ≤ a.mtime) := by
  intro files
  induction files with
  | nil => simp [get_ts_files]
  | cons x xs ih => exact pairwise_insertByMtime x (get_ts_files xs) ih

theorem cacheLookup_cachePop_self (k : String) :
    ∀ c : Cache, cacheLookup k (cachePop k c) = none := by
  intro c
  induction c with
  | nil => rfl
  | cons p rest ih =>
    obtain ⟨k2, v⟩ := p
    by_cases h : k2 = k
    · rw [cachePop, if_pos h]; exact ih
    · rw [cachePop, if_neg h, cacheLookup, if_neg h]; exact ih

theorem cacheLookup_none_cachePop {k : String} (k2 : String) :
    ∀ c : Cache, cacheLookup k c = none →
      cacheLookup k (cachePop k2 c) = none := by
  intro c
  induction c with
  | nil => intro _; rfl
  | cons p rest ih =>
    obtain ⟨k3, v⟩ := p
    intro h
    rw [cacheLookup] at h
    by_cases h3 : k3 = k
    · rw [if_pos h3] at h; exact absurd h (by simp)
    · rw [if_neg h3] at h
      by_cases h32 : k3 = k2
      · rw [cachePop, if_pos h32]; exact ih h
      · rw [cachePop, if_neg h32, cacheLookup, if_neg h3]; exact ih h

theorem moveBatch_none (env : MoveEnv) {k : String} :
    ∀ l : List TsFile, ∀ c : Cache, cacheLookup k c = none →
      cacheLookup k (moveBatch env l c) = none := by
  intro l
  induction l with
  | nil => intro c h; exact h
  | cons g gs ih =>
    intro c h
    show cacheLookup k (moveBatch env gs (if env.moveOk g then cachePop g.path c else c)) = none
    by_cases hm : env.moveOk g = true
    · rw [if_pos hm]; exact ih _ (cacheLookup_none_cachePop g.path c h)
    · rw [if_neg hm]; exact ih _ h

theorem moveBatch_removed (env : MoveEnv) :
    ∀ l : List TsFile, ∀ c : Cache, ∀ f ∈ l, env.moveOk f = true →
      cacheLookup f.path (moveBatch env l c) = none := by
  intro l
  induction l with
  | nil => intro c f hf; simp at hf
  | cons g gs ih =>
    intro c f hf hok
    rcases List.mem_cons.mp hf with hf | hf
    · subst hf
      show cacheLookup f.path
        (moveBatch env gs (if env.moveOk f then cachePop f.path c else c)) = none
      rw [if_pos hok]
      exact moveBatch_none env gs _ (cacheLookup_cachePop_self f.path c)
    · exact ih _ f hf hok

/-- C1: a `start` request while the supervisor is already running
(`is_running` true, i.e. not Idle) falls through to the invalid-operation
branch: it returns the 400 conflict error and has no side effects — no
worker is spawned, nothing is emitted, and `recorder_process` and
`is_running` are exactly as before. -/
theorem C1_start_while_running_conflict (env : ControlEnv) (st : AppState)
    (h : st.is_running = true) :
    control_recorder env "start" st =
      ⟨ControlResult.err "无效的操作" 400, st, none, []⟩ := by
  apply control_recorder_not_start_not_stop
  · intro hc
    rw [h] at hc
    exact absurd hc.2 (by simp)
  · intro hc
    exact absurd hc.1 (by decide)

theorem C1_witness :
    control_recorder ⟨true, true, true, 7, true⟩ "start" ⟨some 5, true⟩ =
      ⟨ControlResult.err "无效的操作" 400, ⟨some 5, true⟩, none, []⟩ :=
  C1_start_while_running_conflict ⟨true, true, true, 7, true⟩ ⟨some 5, true⟩ rfl

/-- C2: a `stop` request while the supervisor is not running falls through
to the invalid-operation branch: it returns the 400 not-running error and
mutates nothing — `recorder_process` and `is_running` are exactly as
before, no emission, no spawn. -/
theorem C2_stop_while_not_running (env : ControlEnv) (st : AppState)
    (h : st.is_running = false) :
    control_recorder env "stop" st =
      ⟨ControlResult.err "无效的操作" 400, st, none, []⟩ := by
  apply control_recorder_not_start_not_stop
  · intro hc
    exact absurd hc.1 (by decide)
  · intro hc
    rw [h] at hc
    exact absurd hc.2 (by simp)

theorem C2_witness :
    control_recorder ⟨true, true, true, 7, true⟩ "stop" ⟨none, false⟩ =
      ⟨ControlResult.err "无效的操作" 400, ⟨none, false⟩, none, []⟩ :=
  C2_stop_while_not_running ⟨true, true, true, 7, true⟩ ⟨none, false⟩ rfl

/-- C9: a `start` from idle with `main.py` missing or the
virtual-environment interpreter missing returns the corresponding
structured 500 error, spawns no worker, and leaves the supervisor state
unchanged (`is_running` still false). -/
theorem C9_start_precondition_failure (env : ControlEnv) (st : AppState)
    (hidle : st.is_running = false)
    (hmiss : env.main_py_exists = false ∨ env.venv_python_exists = false) :
    (env.main_py_exists = false →
      control_recorder env "start" st =
        ⟨ControlResult.err "启动失败: main.py not found" 500, st, none,
          [logEmit (errStartLog "main.py not found")]⟩) ∧
    (env.main_py_exists = true → env.venv_python_exists = false →
      control_recorder env "start" st =
        ⟨ControlResult.err
            "启动失败: Virtual environment Python interpreter not found" 500,
          st, none,
          [logEmit (errStartLog "Virtual environment Python interpreter not found")]⟩) ∧
    (control_recorder env "start" st).spawned = none ∧
    (control_recorder env "start" st).state = st := by
  have hstart : ("start" : String) = "start" ∧ st.is_running = false := ⟨rfl, hidle⟩
  unfold control_recorder
  rw [if_pos hstart]
  cases hm : env.main_py_exists with
  | false =>
    rw [if_pos rfl]
    exact ⟨fun _ => rfl, fun h1 _ => by simp at h1, rfl, rfl⟩
  | true =>
    have hv : env.venv_python_exists = false := by
      rcases hmiss with h | h
      · rw [hm] at h; exact absurd h (by simp)
      · exact h
    rw [if_neg (by simp), if_pos hv]
    exact ⟨fun h1 => by simp at h1, fun _ _ => rfl, rfl, rfl⟩

theorem C9_witness :
    control_recorder ⟨false, true, true, 7, true⟩ "start" ⟨none, false⟩ =
      ⟨ControlResult.err "启动失败: main.py not found" 500, ⟨none, false⟩, none,
        [logEmit (errStartLog "main.py not found")]⟩ :=
  (C9_start_precondition_failure ⟨false, true, true, 7, true⟩ ⟨none, false⟩ rfl
    (Or.inl rfl)).1 rfl

/-- C3 counterexample: sanitization is not idempotent.  On the input
ESC ESC LBRACKET 1 m A, the first pass leaves ESC A (the first ESC did not
start a match, the sequence after it was removed), and the second pass then
matches ESC A as a two-character escape and removes it. -/
theorem C3_counterexample :
    clean_ansi_escape_sequences
        (clean_ansi_escape_sequences [escChar, escChar, '[', '1', 'm', 'A']) ≠
      clean_ansi_escape_sequences [escChar, escChar, '[', '1', 'm', 'A'] := by
  decide

/-- C3 amended: sanitization is idempotent on every input whose sanitized
form contains no ESC character (in particular on already-sanitized lines
that are ESC-free). -/
theorem C3_amended_idempotent_when_no_esc (s : List Char)
    (h : escChar ∉ clean_ansi_escape_sequences s) :
    clean_ansi_escape_sequences (clean_ansi_escape_sequences s) =
      clean_ansi_escape_sequences s :=
  clean_of_no_esc _ h

theorem C3_witness :
    clean_ansi_escape_sequences
        (clean_ansi_escape_sequences ['a', escChar, '[', '1', 'm']) =
      clean_ansi_escape_sequences ['a', escChar, '[', '1', 'm'] :=
  C3_amended_idempotent_when_no_esc ['a', escChar, '[', '1', 'm'] (by decide)

/-- C5: the sanitizer is a pure total function: every input containing no
ESC byte is returned unchanged (all other characters, including internal
whitespace, are preserved), and a complete ANSI/VT escape sequence at the
head of the input is removed. -/
theorem C5_sanitizer_pure_total :
    (∀ s : List Char, escChar ∉ s → clean_ansi_escape_sequences s = s) ∧
    (∀ e r : List Char, EscSeq e →
      clean_ansi_escape_sequences (e ++ r) = clean_ansi_escape_sequences r) :=
  ⟨clean_of_no_esc, fun _ r he => clean_escSeq_append he r⟩

theorem C5_witness :
    clean_ansi_escape_sequences ['h', 'i'] = ['h', 'i'] ∧
    clean_ansi_escape_sequences ([escChar, 'E'] ++ ['B']) =
      clean_ansi_escape_sequences ['B'] :=
  ⟨C5_sanitizer_pure_total.1 ['h', 'i'] (by decide),
   C5_sanitizer_pure_total.2 [escChar, 'E'] ['B'] (EscSeq.single 'E' (by decide))⟩

theorem statusEmit_ne_logEmit (b : Bool) (d : List Char) :
    statusEmit b ≠ logEmit d := by
  intro h
  have : ("status" : String) = "log" := congrArg Emit.event h
  exact absurd this (by decide)

/-- C4: a run's emissions are exactly the per-line `filterMap` of
`lineOut` over the consumed lines (so a log event is published for a line
iff the line is non-empty after `strip()` and sanitization), framed by the
fixed start events, the optional error log, and the `finally` events; and
a line that is whitespace around a concatenation of complete escape
sequences sanitizes to empty and so is never published. -/
theorem C4_log_iff_nonempty_after_sanitize :
    (∀ tr : List StreamItem,
      (monitor_output tr).1 =
        statusEmit true :: logEmit startMsg ::
          ((consumedLines tr).filterMap lineOut ++ errTail tr ++ finallyEmits)) ∧
    (∀ pre m post : List Char, (∀ c ∈ pre, isPySpace c = true) →
      (∀ c ∈ post, isPySpace c = true) → SanEmpty m →
      lineOut (pre ++ m ++ post) = none) := by
  constructor
  · intro tr
    unfold monitor_output
    rw [monitorLoop_eq]
  · intro pre m post hpre hpost hm
    by_cases hne : m = []
    · subst hne
      have hall : ∀ c ∈ pre ++ [] ++ post, isPySpace c = true := by
        intro c hc
        rcases List.mem_append.mp hc with h | h
        · rcases List.mem_append.mp h with h | h
          · exact hpre c h
          · simp at h
        · exact hpost c h
      unfold lineOut
      rw [pyStrip_all_space hall, clean_nil, if_pos rfl]
    · obtain ⟨t, hmt⟩ := sanEmpty_head hm hne
      rcases sanEmpty_rev hm with h | ⟨d, u, hdu, hd⟩
      · exact absurd h hne
      have hstrip : pyStrip (pre ++ m ++ post) = m :=
        pyStrip_sandwich hpre hpost ⟨escChar, t, hmt, escChar_not_space⟩
          ⟨d, u, hdu, hd⟩
      unfold lineOut
      rw [hstrip, clean_sanEmpty hm, if_pos rfl]

theorem C4_witness :
    lineOut [' ', escChar, '[', '3', '1', 'm', escChar, '[', '0', 'm'] = none :=
  C4_log_iff_nonempty_after_sanitize.2 [' ']
    ((escChar :: '[' :: (['3', '1'] ++ [] ++ ['m'])) ++
      ((escChar :: '[' :: (['0'] ++ [] ++ ['m'])) ++ []))
    []
    (by decide) (by decide)
    (SanEmpty.seq (EscSeq.csi ['3', '1'] [] 'm' (by decide) (by decide) (by decide))
      (SanEmpty.seq (EscSeq.csi ['0'] [] 'm' (by decide) (by decide) (by decide))
        SanEmpty.nil))

/-- C6 counterexample: on a run whose stream ends immediately, the relay
emits the fixed shutdown log line after the terminal
`StatusEvent{is_running:false}`, so the terminal status event is not the
last event of the run. -/
theorem C6_counterexample :
    (monitor_output []).1 =
      [statusEmit true, logEmit startMsg, statusEmit false, logEmit stopMsg] ∧
    (monitor_output []).1.getLast? = some (logEmit stopMsg) ∧
    logEmit stopMsg ≠ statusEmit false := by
  refine ⟨rfl, rfl, ?_⟩
  intro h
  exact statusEmit_ne_logEmit false stopMsg h.symm

/-- C6 amended: on every exit path (end of stream, detected worker exit,
or read error) the run's emission sequence ends with the terminal
`StatusEvent{is_running:false}` followed by exactly one fixed shutdown log
line, and the terminal status event occurs nowhere earlier in the run. -/
theorem C6_amended_terminal_status_then_stop_log (tr : List StreamItem) :
    ∃ p : List Emit,
      (monitor_output tr).1 = p ++ [statusEmit false, logEmit stopMsg] ∧
      statusEmit false ∉ p := by
  refine ⟨statusEmit true :: logEmit startMsg ::
    ((consumedLines tr).filterMap lineOut ++ errTail tr), ?_, ?_⟩
  · unfold monitor_output
    rw [monitorLoop_eq]
    simp [finallyEmits, List.append_assoc]
  · intro hmem
    rcases List.mem_cons.mp hmem with h | hmem
    · exact absurd (congrArg (fun e => e.payload) h) (by decide)
    rcases List.mem_cons.mp hmem with h | hmem
    · exact statusEmit_ne_logEmit false startMsg h
    rcases List.mem_append.mp hmem with h | h
    · obtain ⟨d, hd⟩ := filterMap_lineOut_shape _ _ h
      exact statusEmit_ne_logEmit false d (hd ▸ rfl)
    · obtain ⟨d, hd⟩ := errTail_shape _ _ h
      exact statusEmit_ne_logEmit false d (hd ▸ rfl)

/-- C7 counterexample: a log event actually published by a run carries no
sequence number — its payload dictionary is exactly the single key `data`
with the sanitized text, and lookup of `sequence_number` yields nothing. -/
theorem C7_counterexample :
    logEmit ['A'] ∈ (monitor_output [StreamItem.line ['A'] false]).1 ∧
    (logEmit ['A']).payload = [("data", Value.str ['A'])] ∧
    ((logEmit ['A']).payload.lookup "sequence_number") = none := by
  refine ⟨by decide, rfl, rfl⟩

/-- C7 amended: every log event published by the relay carries only the
sanitized text — a payload with the single key `data` and no
sequence-number field; within one run the events are ordered by emission
order. -/
theorem C7_amended_log_payload_only_data (tr : List StreamItem) (e : Emit)
    (he : e ∈ (monitor_output tr).1) (hlog : e.event = "log") :
    ∃ d, e.payload = [("data", Value.str d)] := by
  rcases monitor_emit_shape tr e he with ⟨b, hb⟩ | ⟨d, hd⟩
  · rw [hb] at hlog
    have h2 : ("status" : String) = "log" := hlog
    exact absurd h2 (by decide)
  · subst hd
    exact ⟨d, rfl⟩

theorem C7_witness :
    ∃ d, (logEmit ['A']).payload = [("data", Value.str d)] :=
  C7_amended_log_payload_only_data [StreamItem.line ['A'] false] (logEmit ['A'])
    (by decide) rfl

/-- C8: on every exit path of the read loop — end of stream, poll-detected
worker exit, or a raised read error — the `finally` block closes the
worker's stdout handle before `monitor_output` returns. -/
theorem C8_stream_closed_on_every_path (tr : List StreamItem) :
    (monitor_output tr).2 = true := by
  induction tr with
  | nil => rfl
  | cons item rest ih =>
    cases item with
    | line s exited =>
      cases exited with
      | true => rfl
      | false => exact ih
    | readError m => rfl

/-- C10: when a directory holds more than one .ts file (with pairwise
distinct modification times), the housekeeping pass passes to
`move_file_to_cloud` exactly the files other than the newest — the most
recently modified file is never moved — and every successfully moved
file's entry is absent from the resulting size cache. -/
theorem C10_keep_newest_move_rest (env : MoveEnv) (files : List TsFile)
    (cache : Cache) (hlen : 1 < files.length)
    (hmt : files.Pairwise (fun a b => a.mtime ≠ b.mtime)) :
    (∀ g ∈ files, (∀ f ∈ files, f.mtime ≤ g.mtime) →
      g ∉ (process_directory env files cache).1) ∧
    (∀ f : TsFile, f ∈ (process_directory env files cache).1 ↔
      (f ∈ files ∧ ∃ g ∈ files, f.mtime < g.mtime)) ∧
    (∀ f ∈ (process_directory env files cache).1, env.moveOk f = true →
      cacheLookup f.path (process_directory env files cache).2 = none) := by
  have hperm := get_ts_files_perm files
  have hsort := get_ts_files_sorted files
  have hlen2 : 1 < (get_ts_files files).length := by
    rw [hperm.length_eq]; exact hlen
  obtain ⟨n, others, hts⟩ : ∃ n os, get_ts_files files = n :: os := by
    cases h : get_ts_files files with
    | nil => rw [h] at hlen2; simp at hlen2
    | cons a b => exact ⟨a, b, rfl⟩
  have hne : others ≠ [] := by
    intro h0
    rw [hts, h0] at hlen2
    simp at hlen2
  have hpd : process_directory env files cache =
      (others, moveBatch env others cache) := by
    unfold process_directory
    rw [hts]
    show (if others = [] then processSingle env n cache
      else (others, moveBatch env others cache)) = (others, moveBatch env others cache)
    rw [if_neg hne]
  rw [hts] at hperm hsort
  have hmem : ∀ x : TsFile, x ∈ n :: others ↔ x ∈ files := fun x => hperm.mem_iff
  have hle : ∀ b ∈ others, b.mtime ≤ n.mtime := (List.pairwise_cons.mp hsort).1
  have hne2 : (n :: others).Pairwise (fun a b => a.mtime ≠ b.mtime) :=
    (List.Perm.pairwise_iff (fun h => Ne.symm h) hperm).mpr hmt
  have hlt : ∀ b ∈ others, b.mtime < n.mtime := by
    intro b hb
    have h1 := hle b hb
    have h2 : n.mtime ≠ b.mtime := (List.pairwise_cons.mp hne2).1 b hb
    omega
  rw [hpd]
  refine ⟨?_, ?_, ?_⟩
  · intro g hg hmax hmoved
    have h1 := hlt g hmoved
    have h3 := hmax n ((hmem n).mp (List.mem_cons_self n others))
    omega
  · intro f
    constructor
    · intro hf
      exact ⟨(hmem f).mp (List.mem_cons_of_mem n hf), n,
        (hmem n).mp (List.mem_cons_self n others), hlt f hf⟩
    · rintro ⟨hfile, g, hgfile, hflt⟩
      rcases List.mem_cons.mp ((hmem f).mpr hfile) with hfn | hfo
      · subst hfn
        rcases List.mem_cons.mp ((hmem g).mpr hgfile) with hgn | hgo
        · subst hgn; omega
        · have := hlt g hgo; omega
      · exact hfo
  · intro f hf hok
    exact moveBatch_removed env others cache f hf hok

theorem C10_witness :
    cacheLookup "a.ts"
      (process_directory ⟨fun _ => true⟩
        [⟨"a.ts", 1, 10⟩, ⟨"b.ts", 2, 20⟩] [("a.ts", 5)]).2 = none :=
  (C10_keep_newest_move_rest ⟨fun _ => true⟩
      [⟨"a.ts", 1, 10⟩, ⟨"b.ts", 2, 20⟩] [("a.ts", 5)]
      (by decide) (by decide)).2.2
    ⟨"a.ts", 1, 10⟩ (by decide) rfl

end DLR
